import Mathlib

set_option maxRecDepth 4000

/-!
A verification development for the `line-chat-parser` library.

The source is a single stateful class `LineChatParser` with three pure
matchers (`matchDateHeader`, `matchMessageStart`, `findAuthor`), a
state-accumulation step `process`, an emission step `flush`, and a batch
entry point `parse`.

Embedding conventions:
* JS strings are `List Char`; an absent (`undefined`) argument is `Option.none`.
* A JS `Date` value is modelled at minute resolution as the number of minutes
  since the epoch (`Int`), in a fixed (UTC-like) timezone with no DST.
  `Date.prototype.setHours(h, m)` keeps the midnight of the current day and
  adds `h*60 + m` minutes (JS normalizes overflowing fields, which the
  epoch-minutes representation does automatically).
* Emission (`this.emit("message", msg)`) is modelled by returning the list of
  messages emitted by the call, in emission order, next to the new state.
-/

/-- `\d` of the regexes: an ASCII digit. -/
def isDigit (c : Char) : Bool :=
  decide (48 ≤ c.toNat ∧ c.toNat ≤ 57)

/-- Numeric value of an ASCII digit character. -/
def digitVal (c : Char) : Nat :=
  c.toNat - 48

/-- `parseInt(s, 10)` on a string that the regex guarantees to be all digits. -/
def parseDigits (l : List Char) : Nat :=
  l.foldl (fun acc c => 10 * acc + digitVal c) 0

/-- `[A-Z]` of the date-header regex. -/
def isUpperAZ (c : Char) : Bool :=
  decide (65 ≤ c.toNat ∧ c.toNat ≤ 90)

/-- `[a-z]` of the date-header regex. -/
def isLowerAZ (c : Char) : Bool :=
  decide (97 ≤ c.toNat ∧ c.toNat ≤ 122)

/-- The ECMAScript whitespace class `\s` (so `\S` is its negation):
tab, LF, VT, FF, CR, space, NBSP, and the Unicode space separators. -/
def isJsSpace (c : Char) : Bool :=
  decide (c.toNat = 9 ∨ c.toNat = 10 ∨ c.toNat = 11 ∨ c.toNat = 12 ∨
    c.toNat = 13 ∨ c.toNat = 32 ∨ c.toNat = 160 ∨ c.toNat = 5760 ∨
    (8192 ≤ c.toNat ∧ c.toNat ≤ 8202) ∨ c.toNat = 8232 ∨ c.toNat = 8233 ∨
    c.toNat = 8239 ∨ c.toNat = 8287 ∨ c.toNat = 12288 ∨ c.toNat = 65279)

/-- The ECMAScript `LineTerminator` set: LF, CR, U+2028, U+2029.  The regex
atom `.` (no `s` flag) matches exactly the characters NOT in this set, while
a negated character class such as `[^\t\n]` excludes only what it lists. -/
def isLineTerminator (c : Char) : Bool :=
  decide (c.toNat = 10 ∨ c.toNat = 13 ∨ c.toNat = 8232 ∨ c.toNat = 8233)

/-!
### The JS `Date` model

`new Date(year, month, day)` and `setHours(hours, minutes)` at minute
resolution, as minutes since the epoch.
-/

/-- Days since 1970-01-01 of the civil date `(y, m, d)` with `m ∈ [1,12]`;
`d` may be out of range, in which case the result moves linearly, exactly as
JS `Date` normalizes an out-of-range day-of-month. -/
def daysFromCivil (y m d : Int) : Int :=
  let y2 := if m ≤ 2 then y - 1 else y
  let era := Int.fdiv y2 400
  let yoe := y2 - era * 400
  let mp := Int.emod (m + 9) 12
  let doy := Int.fdiv (153 * mp + 2) 5 + d - 1
  let doe := yoe * 365 + Int.fdiv yoe 4 - Int.fdiv yoe 100 + doy
  era * 146097 + doe - 719468

/-- `new Date(year, month, day)` (month 0-based, possibly out of range, as
produced by `parseInt(..) - 1`), as minutes since the epoch.  JS maps a year
argument in `[0, 99]` to `1900 + year`. -/
def jsDateYMD (year month day : Int) : Int :=
  let y := if 0 ≤ year ∧ year ≤ 99 then 1900 + year else year
  let tm := y * 12 + month
  let ny := Int.fdiv tm 12
  let nm := Int.emod tm 12
  1440 * daysFromCivil ny (nm + 1) day

/-- `date.setHours(hours, minutes)` at minute resolution: keep the midnight of
the day containing `t` and add `hours*60 + minutes` minutes (JS normalizes
overflow, e.g. minute 99 carries into the hour and possibly the day). -/
def setHoursMinutes (t : Int) (hours minutes : Nat) : Int :=
  t - t % 1440 + ((hours * 60 + minutes : Nat) : Int)

/-!
### The matchers

Each JS regex is embedded as an executable function on `List Char` whose
result agrees with `String.prototype.match` (an anchored prefix match with
the regexes' actual backtracking behaviour, which here is deterministic).
-/

/-- The result of `matchDateHeader`: `{ year, month, day }` with `month`
0-based (`parseInt(..) - 1`). -/
structure DateHeader where
  year : Int
  month : Int
  day : Int
deriving DecidableEq

/-- Inside `\(.+\)`: after the first consumed character, is there a `)` that
closes the group before any line terminator stops the `.`-run? -/
def closeBeforeTerminator : List Char → Bool
  | [] => false
  | c :: rest =>
    if c = ')' then true
    else if isLineTerminator c then false
    else closeBeforeTerminator rest

/-- The alternative `\(.+\)` after the opening `(`: at least one
non-line-terminator character, then a closing `)` (itself possibly preceded
by more non-line-terminator characters). -/
def parenAnnotation : List Char → Bool
  | [] => false
  | c :: rest => !isLineTerminator c && closeBeforeTerminator rest

/-- The tail `(?: [A-Z][a-z]+|\(.+\))` of the date-header regex. -/
def dateHeaderTail (l : List Char) : Bool :=
  (match l with
   | ' ' :: u :: v :: _ => isUpperAZ u && isLowerAZ v
   | _ => false) ||
  (match l with
   | '(' :: rest => parenAnnotation rest
   | _ => false)

/-- `matchDateHeader(line)`: the regex
`/^(\d{4})[./](\d{2})[./](\d{2})(?: [A-Z][a-z]+|\(.+\))/` with
`{ year, month: parseInt - 1, day }` on success. -/
def matchDateHeader (line : List Char) : Option DateHeader :=
  match line with
  | y1 :: y2 :: y3 :: y4 :: s1 :: mo1 :: mo2 :: s2 :: d1 :: d2 :: rest =>
    if isDigit y1 && isDigit y2 && isDigit y3 && isDigit y4 &&
        (s1 == '.' || s1 == '/') && isDigit mo1 && isDigit mo2 &&
        (s2 == '.' || s2 == '/') && isDigit d1 && isDigit d2 &&
        dateHeaderTail rest then
      some { year := (parseDigits [y1, y2, y3, y4] : Int),
             month := (parseDigits [mo1, mo2] : Int) - 1,
             day := (parseDigits [d1, d2] : Int) }
    else none
  | _ => none

/-- The common time prefix `^(\d{1,2}):(\d{2})` of both message-start
regexes: on success, the (unreduced) hour value, the minute value, and the
rest of the line.  `\d{1,2}` is greedy; its backtracking never succeeds
because a failed two-digit attempt leaves a digit where `:` is required. -/
def matchTime (l : List Char) : Option (Nat × Nat × List Char) :=
  match l with
  | c1 :: c2 :: rest2 =>
    if isDigit c1 then
      if isDigit c2 then
        match rest2 with
        | ':' :: m1 :: m2 :: rest3 =>
          if isDigit m1 && isDigit m2 then
            some (10 * digitVal c1 + digitVal c2,
                  10 * digitVal m1 + digitVal m2, rest3)
          else none
        | _ => none
      else if c2 = ':' then
        match rest2 with
        | m1 :: m2 :: rest3 =>
          if isDigit m1 && isDigit m2 then
            some (digitVal c1, 10 * digitVal m1 + digitVal m2, rest3)
          else none
        | _ => none
      else none
    else none
  | _ => none

/-- `findAuthor(users, text)`: the reduction with initial value `""` keeping
the longest array element that is a prefix of `text`
(`user.length > previousValue.length && text.indexOf(user) === 0`). -/
def findAuthor (users : List (List Char)) (text : List Char) : List Char :=
  users.foldl
    (fun prev user =>
      if prev.length < user.length ∧ user.isPrefixOf text = true then user
      else prev)
    []

/-- The result of `matchMessageStart`: `{ hours, minutes, author, text }`. -/
structure MsgStart where
  hours : Nat
  minutes : Nat
  author : List Char
  text : List Char
deriving DecidableEq

/-- The tail `([^\t\n]+)\t?(.*)` of the no-users regex, applied after the
separator: `match[3]` is the maximal nonempty run without tab/newline (a
carriage return is allowed there: the class excludes only what it lists), an
optional tab is consumed, `match[4]` is the maximal run of `.`-matching
characters, i.e. without line terminators; then `author = match[3]` and
`text = match[4] || match[3].substring(author.length + 1)`. -/
def noUsersTail (h mn : Nat) (rest2 : List Char) : Option MsgStart :=
  let m3 := rest2.takeWhile (fun c => c != '\t' && c != '\n')
  let rest3 := rest2.dropWhile (fun c => c != '\t' && c != '\n')
  if m3 = [] then none
  else
    let rest4 := match rest3 with
      | '\t' :: r => r
      | r => r
    let m4 := rest4.takeWhile (fun c => !isLineTerminator c)
    let author := m3
    let text := if m4 ≠ [] then m4 else m3.drop (author.length + 1)
    some { hours := h % 24, minutes := mn, author := author, text := text }

/-- The tail `(\S.+)` of the with-users regex, applied after the separator:
`match[3]` is a non-whitespace character followed by a maximal nonempty run
of `.`-matching characters (no line terminators, so it stops before a
carriage return); then `author = findAuthor(users, match[3])` and
`text = match[3].substring(author.length + 1)` (here `match[4]` is
`undefined`). -/
def usersTail (us : List (List Char)) (h mn : Nat) (rest2 : List Char) :
    Option MsgStart :=
  match rest2 with
  | [] => none
  | c :: rest3 =>
    if isJsSpace c then none
    else
      let tl := rest3.takeWhile (fun x => !isLineTerminator x)
      if tl = [] then none
      else
        let m3 := c :: tl
        let author := findAuthor us m3
        some { hours := h % 24, minutes := mn, author := author,
               text := m3.drop (author.length + 1) }

/-- `matchMessageStart(line, users)`: the regex
`/^(\d{1,2}):(\d{2})[ \t]([^\t\n]+)\t?(.*)/` when `users` is `undefined`,
`/^(\d{1,2}):(\d{2})[ \t](\S.+)/` otherwise; hours are reduced modulo 24. -/
def matchMessageStart (line : List Char) (users : Option (List (List Char))) :
    Option MsgStart :=
  match matchTime line with
  | none => none
  | some (h, mn, rest) =>
    match rest with
    | [] => none
    | sep :: rest2 =>
      if sep == ' ' || sep == '\t' then
        match users with
        | none => noUsersTail h mn rest2
        | some us => usersTail us h mn rest2
      else none

/-!
### The stateful accumulator
-/

/-- An emitted message record `{ date, author, text }`. -/
structure Message where
  date : Int
  author : List Char
  text : List Char
deriving DecidableEq

/-- The parser state: the constructor stores `users` verbatim (possibly
`undefined`), `currentDate` starts as the construction-time date, and
`currentMessage` starts as `null`. -/
structure LineChatParser where
  users : Option (List (List Char))
  currentDate : Int
  currentMessage : Option Message
deriving DecidableEq

/-- `flush()`: if a message is in progress, emit it and clear the slot;
otherwise do nothing. -/
def LineChatParser.flush (p : LineChatParser) : LineChatParser × List Message :=
  match p.currentMessage with
  | some msg => ({ p with currentMessage := none }, [msg])
  | none => (p, [])

/-- `processDateHeader(year, month, day)`: flush, then set `currentDate` to
`new Date(year, month, day)`. -/
def LineChatParser.processDateHeader (p : LineChatParser)
    (year month day : Int) : LineChatParser × List Message :=
  let r := p.flush
  ({ r.1 with currentDate := jsDateYMD year month day }, r.2)

/-- `processMessageStart(hours, minutes, author, text)`: flush, then start a
new in-progress message dated `currentDate` with its hours/minutes set. -/
def LineChatParser.processMessageStart (p : LineChatParser)
    (hours minutes : Nat) (author text : List Char) :
    LineChatParser × List Message :=
  let r := p.flush
  let msg : Message :=
    { date := setHoursMinutes r.1.currentDate hours minutes,
      author := author, text := text }
  ({ r.1 with currentMessage := some msg }, r.2)

/-- `processMessageContinuation(text)`: append `"\n" + text` to the
in-progress message, if any; otherwise do nothing. -/
def LineChatParser.processMessageContinuation (p : LineChatParser)
    (text : List Char) : LineChatParser :=
  match p.currentMessage with
  | some msg =>
    let msg2 : Message := { msg with text := msg.text ++ '\n' :: text }
    { p with currentMessage := some msg2 }
  | none => p

/-- `process(line)`: try the date header, then the message start, and fall
through to the continuation case. -/
def LineChatParser.process (p : LineChatParser) (line : List Char) :
    LineChatParser × List Message :=
  match matchDateHeader line with
  | some dh => p.processDateHeader dh.year dh.month dh.day
  | none =>
    match matchMessageStart line p.users with
    | some ms => p.processMessageStart ms.hours ms.minutes ms.author ms.text
    | none => (p.processMessageContinuation line, [])

/-- Cons a character onto the first piece of a split (used by the line
splitters for a character that is not a line terminator). -/
def consHead (c : Char) : List (List Char) → List (List Char)
  | [] => [[c]]
  | l :: ls => (c :: l) :: ls

/-- `file.split(/\r?\n/)`: cut at every `\n`, consuming one `\r` immediately
before it; a `\r` not followed by `\n` stays inside its line. -/
def splitLines : List Char → List (List Char)
  | [] => [[]]
  | '\n' :: rest => [] :: splitLines rest
  | '\r' :: '\n' :: rest => [] :: splitLines rest
  | c :: rest => consHead c (splitLines rest)

/-- The line sequence used by `parse`: an array argument as-is, a string
argument split by `split(/\r?\n/)`. -/
def linesOf (file : Sum (List Char) (List (List Char))) : List (List Char) :=
  match file with
  | Sum.inl str => splitLines str
  | Sum.inr arr => arr

/-- `lines.forEach((line) => parser.process(line))` with a `message` listener
collecting every emitted message in emission order. -/
def processAll (p : LineChatParser) : List (List Char) →
    LineChatParser × List Message
  | [] => (p, [])
  | l :: ls =>
    let r := p.process l
    let rs := processAll r.1 ls
    (rs.1, r.2 ++ rs.2)

/-- `LineChatParser.parse(file, users)`: construct a fresh parser (with the
construction-time date passed explicitly as `now`), process every line in
order, flush once, and return the collected messages. -/
def LineChatParser.parse (now : Int)
    (file : Sum (List Char) (List (List Char)))
    (users : Option (List (List Char))) : List Message :=
  let parser : LineChatParser :=
    { users := users, currentDate := now, currentMessage := none }
  let r := processAll parser (linesOf file)
  r.2 ++ r.1.flush.2

/-!
### Theorems
-/

/-- C7: `flush` is idempotent: with a message in progress it emits exactly
that message and clears the slot (touching nothing else); with none it is a
no-op; two consecutive flushes emit at most one message in total. -/
theorem claim_C7 (p : LineChatParser) :
    (∀ msg, p.currentMessage = some msg →
       p.flush = ({ p with currentMessage := none }, [msg])) ∧
    (p.currentMessage = none → p.flush = (p, [])) ∧
    p.flush.1.flush = (p.flush.1, []) ∧
    p.flush.2.length + p.flush.1.flush.2.length ≤ 1 := by
  cases hp : p.currentMessage <;>
    simp [LineChatParser.flush, hp]

/-- C7 witness: the two-flush bound at a concrete state holding a message. -/
theorem claim_C7_witness :
    (∀ msg,
       (⟨none, 0, some ⟨720, [], String.toList "hi"⟩⟩ :
          LineChatParser).currentMessage = some msg →
       (⟨none, 0, some ⟨720, [], String.toList "hi"⟩⟩ :
          LineChatParser).flush =
         ({ (⟨none, 0, some ⟨720, [], String.toList "hi"⟩⟩ : LineChatParser)
            with currentMessage := none }, [msg])) ∧
    ((⟨none, 0, some ⟨720, [], String.toList "hi"⟩⟩ :
        LineChatParser).currentMessage = none →
       (⟨none, 0, some ⟨720, [], String.toList "hi"⟩⟩ : LineChatParser).flush =
         ((⟨none, 0, some ⟨720, [], String.toList "hi"⟩⟩ : LineChatParser), [])) ∧
    (⟨none, 0, some ⟨720, [], String.toList "hi"⟩⟩ :
        LineChatParser).flush.1.flush =
      ((⟨none, 0, some ⟨720, [], String.toList "hi"⟩⟩ :
          LineChatParser).flush.1, []) ∧
    (⟨none, 0, some ⟨720, [], String.toList "hi"⟩⟩ :
        LineChatParser).flush.2.length +
      (⟨none, 0, some ⟨720, [], String.toList "hi"⟩⟩ :
          LineChatParser).flush.1.flush.2.length ≤ 1 :=
  claim_C7 ⟨none, 0, some ⟨720, [], String.toList "hi"⟩⟩

/-- C9: `process` is a total function on arbitrary lines and parser states
(so processing any string and then flushing is always defined in the model —
nothing can be raised): every line falls into exactly one of the three
classification cases, with unrecognized lines falling through to the
continuation case. -/
theorem claim_C9 (p : LineChatParser) (line : List Char) :
    (∃ dh, matchDateHeader line = some dh ∧
       p.process line = p.processDateHeader dh.year dh.month dh.day) ∨
    (∃ ms, matchDateHeader line = none ∧
       matchMessageStart line p.users = some ms ∧
       p.process line = p.processMessageStart ms.hours ms.minutes ms.author ms.text) ∨
    (matchDateHeader line = none ∧ matchMessageStart line p.users = none ∧
       p.process line = (p.processMessageContinuation line, [])) := by
  cases h1 : matchDateHeader line with
  | some dh =>
    exact Or.inl ⟨dh, rfl, by simp [LineChatParser.process, h1]⟩
  | none =>
    cases h2 : matchMessageStart line p.users with
    | some ms =>
      exact Or.inr (Or.inl ⟨ms, rfl, rfl, by simp [LineChatParser.process, h1, h2]⟩)
    | none =>
      exact Or.inr (Or.inr ⟨rfl, rfl, by simp [LineChatParser.process, h1, h2]⟩)

/-- C6: a line matching neither pattern emits nothing; with a message in
progress it appends exactly a newline plus the whole line to its text and
changes nothing else, and with no message in progress it leaves the state
unchanged. -/
theorem claim_C6 (p : LineChatParser) (line : List Char)
    (h1 : matchDateHeader line = none)
    (h2 : matchMessageStart line p.users = none) :
    (p.process line).2 = [] ∧
    (p.currentMessage = none → (p.process line).1 = p) ∧
    (∀ msg, p.currentMessage = some msg →
       (p.process line).1 =
         { p with currentMessage := some ⟨msg.date, msg.author, msg.text ++ '\n' :: line⟩ }) := by
  cases hp : p.currentMessage <;>
    simp [LineChatParser.process, h1, h2, LineChatParser.processMessageContinuation, hp]

/-- C6 witness: the continuation case on the second line of the test
sequence `"12:00 foo first"`, `"second"`. -/
theorem claim_C6_witness :
    (matchDateHeader (String.toList "second") = none ∧
     matchMessageStart (String.toList "second")
       (some [String.toList "foo"]) = none) ∧
    (LineChatParser.process
       ⟨some [String.toList "foo"], 0,
        some ⟨720, String.toList "foo", String.toList "first"⟩⟩
       (String.toList "second")).2 = [] ∧
    (LineChatParser.process
       ⟨some [String.toList "foo"], 0,
        some ⟨720, String.toList "foo", String.toList "first"⟩⟩
       (String.toList "second")).1 =
      ⟨some [String.toList "foo"], 0,
       some ⟨720, String.toList "foo",
             String.toList "first" ++ '\n' :: String.toList "second"⟩⟩ := by
  have h := claim_C6
    ⟨some [String.toList "foo"], 0,
     some ⟨720, String.toList "foo", String.toList "first"⟩⟩
    (String.toList "second") (by decide) (by decide)
  exact ⟨⟨by decide, by decide⟩, h.1,
    h.2.2 ⟨720, String.toList "foo", String.toList "first"⟩ rfl⟩

/-- C2: a date-header or message-start line first emits exactly what `flush`
would emit; in particular a message-start line followed by a date-header line
emits exactly one message, built entirely from the first line's tokens and
the old `currentDate` (so its text contains nothing from the date-header
line, and the emission uses the value of `currentDate` from before the date
header updates it), after which no message is in progress. -/
theorem claim_C2 :
    (∀ (p : LineChatParser) (line : List Char),
       (matchDateHeader line).isSome = true ∨
         (matchMessageStart line p.users).isSome = true →
       (p.process line).2 = p.flush.2) ∧
    (∀ (p : LineChatParser) (l1 l2 : List Char) (ms : MsgStart) (dh : DateHeader),
       p.currentMessage = none →
       matchDateHeader l1 = none →
       matchMessageStart l1 p.users = some ms →
       matchDateHeader l2 = some dh →
       (p.process l1).2 = [] ∧
       ((p.process l1).1.process l2).2 =
         [⟨setHoursMinutes p.currentDate ms.hours ms.minutes, ms.author, ms.text⟩] ∧
       ((p.process l1).1.process l2).1.currentMessage = none ∧
       ((p.process l1).1.process l2).1.currentDate =
         jsDateYMD dh.year dh.month dh.day) := by
  constructor
  · intro p line h
    cases h1 : matchDateHeader line with
    | some dh =>
      simp [LineChatParser.process, h1, LineChatParser.processDateHeader]
    | none =>
      rcases h with h | h
      · rw [h1] at h; simp at h
      · cases h2 : matchMessageStart line p.users with
        | some ms =>
          simp [LineChatParser.process, h1, h2, LineChatParser.processMessageStart]
        | none => rw [h2] at h; simp at h
  · intro p l1 l2 ms dh hcm hd1 hm1 hd2
    simp [LineChatParser.process, hd1, hm1, hd2,
      LineChatParser.processMessageStart, LineChatParser.processDateHeader,
      LineChatParser.flush, hcm]

/-- C2 witness: the test pair `"12:00 foo hello date"`, `"2017.09.02
Saturday"` on a fresh parser with users `["foo"]`. -/
theorem claim_C2_witness :
    ((⟨some [String.toList "foo"], 0, none⟩ : LineChatParser).currentMessage
        = none ∧
     matchDateHeader (String.toList "12:00 foo hello date") = none ∧
     matchMessageStart (String.toList "12:00 foo hello date")
       (some [String.toList "foo"]) =
         some ⟨12, 0, String.toList "foo", String.toList "hello date"⟩ ∧
     matchDateHeader (String.toList "2017.09.02 Saturday") =
       some ⟨2017, 8, 2⟩) ∧
    ((LineChatParser.process ⟨some [String.toList "foo"], 0, none⟩
        (String.toList "12:00 foo hello date")).2 = [] ∧
     ((LineChatParser.process ⟨some [String.toList "foo"], 0, none⟩
        (String.toList "12:00 foo hello date")).1.process
          (String.toList "2017.09.02 Saturday")).2 =
       [⟨setHoursMinutes 0 12 0, String.toList "foo",
         String.toList "hello date"⟩] ∧
     ((LineChatParser.process ⟨some [String.toList "foo"], 0, none⟩
        (String.toList "12:00 foo hello date")).1.process
          (String.toList "2017.09.02 Saturday")).1.currentMessage = none ∧
     ((LineChatParser.process ⟨some [String.toList "foo"], 0, none⟩
        (String.toList "12:00 foo hello date")).1.process
          (String.toList "2017.09.02 Saturday")).1.currentDate =
       jsDateYMD 2017 8 2) :=
  ⟨⟨rfl, by decide, by decide, by decide⟩,
    claim_C2.2 ⟨some [String.toList "foo"], 0, none⟩
      (String.toList "12:00 foo hello date")
      (String.toList "2017.09.02 Saturday")
      ⟨12, 0, String.toList "foo", String.toList "hello date"⟩
      ⟨2017, 8, 2⟩ rfl (by decide) (by decide) (by decide)⟩

/-- With no message in progress, a line matching neither pattern leaves the
whole state unchanged and emits nothing, so a run of such lines does too. -/
theorem processAll_unrecognized (p : LineChatParser)
    (hcm : p.currentMessage = none) :
    ∀ lines : List (List Char),
      (∀ l ∈ lines, matchDateHeader l = none ∧
        matchMessageStart l p.users = none) →
      processAll p lines = (p, []) := by
  intro lines
  induction lines with
  | nil => intro _; rfl
  | cons l ls ih =>
    intro h
    have hl := h l (List.mem_cons_self l ls)
    have hstep : p.process l = (p, []) := by
      simp [LineChatParser.process, hl.1, hl.2,
        LineChatParser.processMessageContinuation, hcm]
    have hrest := ih (fun x hx => h x (List.mem_cons_of_mem l hx))
    simp [processAll, hstep, hrest]

/-- C10: `parse` on the empty string returns no messages, and more generally
`parse` on any input whose lines all match neither pattern returns no
messages: each such line is discarded (no message ever being in progress) and
the final flush emits nothing. -/
theorem claim_C10 :
    (∀ now users, LineChatParser.parse now (Sum.inl []) users = []) ∧
    (∀ now users file,
      (∀ l ∈ linesOf file, matchDateHeader l = none ∧
        matchMessageStart l users = none) →
      LineChatParser.parse now file users = []) := by
  have main : ∀ (now : Int) users file,
      (∀ l ∈ linesOf file, matchDateHeader l = none ∧
        matchMessageStart l users = none) →
      LineChatParser.parse now file users = [] := by
    intro now users file h
    have hall := processAll_unrecognized
      ⟨users, now, none⟩ rfl (linesOf file) h
    simp [LineChatParser.parse, hall, LineChatParser.flush]
  refine ⟨fun now users => main now users (Sum.inl []) ?_, main⟩
  intro l hl
  have : l = [] := by
    simpa [linesOf, splitLines] using hl
  subst this
  exact ⟨rfl, rfl⟩

/-- C10 witness: discharging the all-unrecognized hypothesis on the concrete
two-line input `"hello"`, `""`. -/
theorem claim_C10_witness :
    (∀ l ∈ linesOf (Sum.inl (String.toList "hello\n")),
      matchDateHeader l = none ∧
      matchMessageStart l (some [String.toList "foo"]) = none) ∧
    LineChatParser.parse 0 (Sum.inl (String.toList "hello\n"))
      (some [String.toList "foo"]) = [] :=
  ⟨by decide, claim_C10.2 0 (some [String.toList "foo"])
    (Sum.inl (String.toList "hello\n")) (by decide)⟩

/-- Invariant of the `findAuthor` reduction: starting from `init`, the result
is `init` or a prefix-of-`text` element of `users`, it is never shorter than
`init`, and it is at least as long as every prefix-of-`text` element of
`users` (so a strictly longer later match replaces, an equal-length one does
not). -/
theorem findAuthor_fold (text : List Char) :
    ∀ (users : List (List Char)) (init : List Char),
      (users.foldl
          (fun prev user =>
            if prev.length < user.length ∧ user.isPrefixOf text = true then user
            else prev) init = init ∨
        (users.foldl
          (fun prev user =>
            if prev.length < user.length ∧ user.isPrefixOf text = true then user
            else prev) init ∈ users ∧
         (users.foldl
          (fun prev user =>
            if prev.length < user.length ∧ user.isPrefixOf text = true then user
            else prev) init).isPrefixOf text = true)) ∧
      init.length ≤ (users.foldl
          (fun prev user =>
            if prev.length < user.length ∧ user.isPrefixOf text = true then user
            else prev) init).length ∧
      ∀ u ∈ users, u.isPrefixOf text = true →
        u.length ≤ (users.foldl
          (fun prev user =>
            if prev.length < user.length ∧ user.isPrefixOf text = true then user
            else prev) init).length := by
  intro users
  induction users with
  | nil => intro init; simp
  | cons u0 rest ih =>
    intro init
    rw [List.foldl_cons]
    by_cases hc : init.length < u0.length ∧ u0.isPrefixOf text = true
    · rw [if_pos hc]
      obtain ⟨mem, le, longest⟩ := ih u0
      refine ⟨?_, ?_, ?_⟩
      · rcases mem with h | h
        · exact Or.inr ⟨by rw [h]; exact List.mem_cons_self u0 rest, by rw [h]; exact hc.2⟩
        · exact Or.inr ⟨List.mem_cons_of_mem u0 h.1, h.2⟩
      · exact le_trans (le_of_lt hc.1) le
      · intro u hu hpre
        rcases List.mem_cons.mp hu with h | h
        · subst h; exact le
        · exact longest u h hpre
    · rw [if_neg hc]
      obtain ⟨mem, le, longest⟩ := ih init
      refine ⟨?_, ?_, ?_⟩
      · rcases mem with h | h
        · exact Or.inl h
        · exact Or.inr ⟨List.mem_cons_of_mem u0 h.1, h.2⟩
      · exact le
      · intro u hu hpre
        rcases List.mem_cons.mp hu with h | h
        · subst h
          have : ¬ init.length < u.length := fun hlt => hc ⟨hlt, hpre⟩
          exact le_trans (Nat.le_of_not_lt this) le
        · exact longest u h hpre

/-- A character that is not ECMAScript whitespace is not a line terminator
(all four line terminators are whitespace). -/
theorem not_lineTerminator_of_not_jsSpace {c : Char} (h : isJsSpace c = false) :
    (!isLineTerminator c) = true := by
  by_contra hne
  have hterm : isLineTerminator c = true := by
    cases hx : isLineTerminator c
    · rw [hx] at hne; exact absurd rfl hne
    · rfl
  have : isJsSpace c = true := by
    simp only [isLineTerminator, decide_eq_true_eq] at hterm
    simp only [isJsSpace, decide_eq_true_eq]
    rcases hterm with h1 | h1 | h1 | h1 <;> simp [h1]
  rw [this] at h
  exact absurd h (by simp)

/-- C1: whenever the with-users message-start pattern matches, the author is
the longest element of `users` that is a prefix of the captured post-time
remainder — the `(\S.+)` capture, which stops at the first line terminator
as the regex `.` does — (a strictly longer match replaces the current best,
an equal-length one does not, and equal-length prefixes of the same
remainder coincide anyway), the text is the remainder with
`author.length + 1` leading characters dropped, and with no prefix match the
author is empty and the text is the remainder minus its first character. -/
theorem claim_C1 (us : List (List Char)) (line : List Char) (ms : MsgStart)
    (h : matchMessageStart line (some us) = some ms) :
    ∃ h12 mn sep rest2 rem,
      matchTime line = some (h12, mn, sep :: rest2) ∧
      (sep = ' ' ∨ sep = '\t') ∧
      rem = rest2.takeWhile (fun c => !isLineTerminator c) ∧
      ms.author = findAuthor us rem ∧
      ms.text = rem.drop (ms.author.length + 1) ∧
      (ms.author = [] ∨
        (ms.author ∈ us ∧ ms.author.isPrefixOf rem = true)) ∧
      (∀ u ∈ us, u.isPrefixOf rem = true → u.length ≤ ms.author.length) ∧
      ((∀ u ∈ us, ¬ u.isPrefixOf rem = true) →
        ms.author = [] ∧ ms.text = rem.drop 1) := by
  unfold matchMessageStart at h
  cases hmt : matchTime line with
  | none => rw [hmt] at h; simp at h
  | some trip =>
    obtain ⟨h12, mn, rest⟩ := trip
    rw [hmt] at h
    cases rest with
    | nil => simp at h
    | cons sep rest2 =>
      simp only at h
      by_cases hsep : (sep == ' ' || sep == '\t') = true
      · rw [if_pos hsep] at h
        simp only [usersTail] at h
        cases hr2 : rest2 with
        | nil => rw [hr2] at h; simp at h
        | cons c rest3 =>
          rw [hr2] at h
          simp only at h
          by_cases hsp : isJsSpace c = true
          · rw [if_pos hsp] at h; simp at h
          · have hsp' : isJsSpace c = false := by
              simpa using hsp
            rw [if_neg hsp] at h
            by_cases htl : rest3.takeWhile (fun x => !isLineTerminator x) = []
            · rw [if_pos htl] at h; simp at h
            · rw [if_neg htl] at h
              have hms := (Option.some.injEq _ _).mp h
              have hcnl : (!isLineTerminator c) = true :=
                not_lineTerminator_of_not_jsSpace hsp'
              have hrem : (c :: rest3).takeWhile (fun c => !isLineTerminator c) =
                  c :: rest3.takeWhile (fun x => !isLineTerminator x) := by
                rw [List.takeWhile_cons, if_pos hcnl]
              refine ⟨h12, mn, sep, c :: rest3,
                c :: rest3.takeWhile (fun x => !isLineTerminator x),
                rfl, ?_, hrem.symm, ?_, ?_, ?_, ?_, ?_⟩
              · rcases (by simpa using hsep : sep = ' ' ∨ sep = '\t') with h' | h'
                · exact Or.inl h'
                · exact Or.inr h'
              · rw [← hms]
              · rw [← hms]
              · obtain ⟨mem, _, _⟩ := findAuthor_fold
                  (c :: rest3.takeWhile (fun x => !isLineTerminator x)) us []
                rw [← hms]
                simpa [findAuthor] using mem
              · intro u hu hpre
                obtain ⟨_, _, longest⟩ := findAuthor_fold
                  (c :: rest3.takeWhile (fun x => !isLineTerminator x)) us []
                rw [← hms]
                simpa [findAuthor] using longest u hu hpre
              · intro hnone
                obtain ⟨mem, _, _⟩ := findAuthor_fold
                  (c :: rest3.takeWhile (fun x => !isLineTerminator x)) us []
                have hauth : ms.author =
                    findAuthor us (c :: rest3.takeWhile (fun x => !isLineTerminator x)) := by
                  rw [← hms]
                have hempty : findAuthor us
                    (c :: rest3.takeWhile (fun x => !isLineTerminator x)) = [] := by
                  rcases mem with h' | h'
                  · simpa [findAuthor] using h'
                  · exact absurd ((by simpa [findAuthor] using h' :
                      findAuthor us (c :: rest3.takeWhile (fun x => !isLineTerminator x)) ∈ us ∧
                      (findAuthor us
                        (c :: rest3.takeWhile (fun x => !isLineTerminator x))).isPrefixOf
                          (c :: rest3.takeWhile (fun x => !isLineTerminator x)) = true)).2
                      (hnone _ (by simpa [findAuthor] using h'.1))
                refine ⟨by rw [hauth, hempty], ?_⟩
                rw [← hms]
                simp [hauth, hempty]
      · rw [if_neg hsep] at h; simp at h

/-- C1 witness: the longest-prefix test case — users
`["foo", "bar", "foo bar"]` on `"12:00 foo bar hello world"` select author
`"foo bar"`. -/
theorem claim_C1_witness :
    matchMessageStart (String.toList "12:00 foo bar hello world")
      (some [String.toList "foo", String.toList "bar", String.toList "foo bar"]) =
      some ⟨12, 0, String.toList "foo bar", String.toList "hello world"⟩ ∧
    ∃ h12 mn sep rest2 rem,
      matchTime (String.toList "12:00 foo bar hello world") =
        some (h12, mn, sep :: rest2) ∧
      (sep = ' ' ∨ sep = '\t') ∧
      rem = rest2.takeWhile (fun c => !isLineTerminator c) ∧
      String.toList "foo bar" =
        findAuthor [String.toList "foo", String.toList "bar",
          String.toList "foo bar"] rem ∧
      String.toList "hello world" =
        rem.drop ((String.toList "foo bar").length + 1) ∧
      (String.toList "foo bar" = [] ∨
        (String.toList "foo bar" ∈
            [String.toList "foo", String.toList "bar", String.toList "foo bar"] ∧
          (String.toList "foo bar").isPrefixOf rem = true)) ∧
      (∀ u ∈ [String.toList "foo", String.toList "bar", String.toList "foo bar"],
        u.isPrefixOf rem = true → u.length ≤ (String.toList "foo bar").length) ∧
      ((∀ u ∈ [String.toList "foo", String.toList "bar", String.toList "foo bar"],
          ¬ u.isPrefixOf rem = true) →
        String.toList "foo bar" = [] ∧
        String.toList "hello world" = rem.drop 1) :=
  ⟨by decide,
    claim_C1 [String.toList "foo", String.toList "bar", String.toList "foo bar"]
      (String.toList "12:00 foo bar hello world")
      ⟨12, 0, String.toList "foo bar", String.toList "hello world"⟩
      (by decide)⟩

/-- On a newline-free list, the `[^\t\n]` run is just the `[^\t]` run. -/
theorem takeWhile_notab_of_no_newline (l : List Char) (h : '\n' ∉ l) :
    l.takeWhile (fun c => c != '\t' && c != '\n') =
      l.takeWhile (fun c => c != '\t') := by
  induction l with
  | nil => rfl
  | cons c rest ih =>
    have hc : (c != '\n') = true := by
      have : c ≠ '\n' := by
        intro hceq
        exact h (hceq ▸ List.mem_cons_self c rest)
      simpa using this
    have hrest : '\n' ∉ rest := fun hm => h (List.mem_cons_of_mem c hm)
    cases hct : (c != '\t') <;>
      simp [List.takeWhile_cons, hct, hc, ih hrest]

/-- On a newline-free list, dropping the `[^\t\n]` run is dropping the
`[^\t]` run. -/
theorem dropWhile_notab_of_no_newline (l : List Char) (h : '\n' ∉ l) :
    l.dropWhile (fun c => c != '\t' && c != '\n') =
      l.dropWhile (fun c => c != '\t') := by
  induction l with
  | nil => rfl
  | cons c rest ih =>
    have hc : (c != '\n') = true := by
      have : c ≠ '\n' := by
        intro hceq
        exact h (hceq ▸ List.mem_cons_self c rest)
      simpa using this
    have hrest : '\n' ∉ rest := fun hm => h (List.mem_cons_of_mem c hm)
    cases hct : (c != '\t') <;>
      simp [List.dropWhile_cons, hct, hc, ih hrest]

/-- What is left after the `[^\t]` run is empty or starts with the tab. -/
theorem dropWhile_notab_shape (l : List Char) :
    l.dropWhile (fun c => c != '\t') = [] ∨
    ∃ r, l.dropWhile (fun c => c != '\t') = '\t' :: r := by
  induction l with
  | nil => exact Or.inl rfl
  | cons c rest ih =>
    cases hct : (c != '\t') with
    | true => simpa [List.dropWhile_cons, hct] using ih
    | false =>
      have : c = '\t' := by simpa using hct
      subst this
      exact Or.inr ⟨rest, by simp [List.dropWhile_cons]⟩

/-- A list free of line terminators is its own `.*` capture. -/
theorem takeWhile_noterm_of_terminator_free (l : List Char)
    (h : ∀ c ∈ l, isLineTerminator c = false) :
    l.takeWhile (fun c => !isLineTerminator c) = l := by
  induction l with
  | nil => rfl
  | cons c rest ih =>
    have hc : (!isLineTerminator c) = true := by
      rw [h c (List.mem_cons_self c rest)]
      rfl
    have hrest : ∀ x ∈ rest, isLineTerminator x = false :=
      fun x hm => h x (List.mem_cons_of_mem c hm)
    simp [List.takeWhile_cons, hc, ih hrest]

/-- Membership is preserved from the dropped part into the whole list. -/
theorem mem_of_mem_dropWhile {c : Char} {p : Char → Bool} :
    ∀ l : List Char, c ∈ l.dropWhile p → c ∈ l := by
  intro l
  induction l with
  | nil => exact fun h => h
  | cons x rest ih =>
    intro h
    by_cases hx : p x = true
    · simp only [List.dropWhile_cons, hx, if_true] at h
      exact List.mem_cons_of_mem x (ih h)
    · simp only [List.dropWhile_cons, hx, if_false] at h
      simpa using h

/-- C3 counterexample: `"12:00\t\tfoo"` is time, one separator tab, and the
remainder `"\tfoo"`, which contains a tab — the claim would make it a
message start with author `""` and text `"foo"` — but the code does not
recognize it at all (the `[^\t\n]+` author segment cannot be empty), so the
line falls through to the continuation case. -/
theorem claim_C3_counterexample :
    String.toList "12:00\t\tfoo" =
      String.toList "12:00" ++ '\t' :: String.toList "\tfoo" ∧
    matchMessageStart (String.toList "12:00\t\tfoo") none = none := by
  constructor
  · decide
  · decide

/-- C3 (amended): without users, a line of the form time, one space-or-tab
separator, and a nonempty remainder free of line terminators (LF, CR,
U+2028, U+2029) whose first character is not a tab, is a message start whose
author is the remainder's segment before its first tab and whose text is
everything after that first tab (later tabs included; no tab means the whole
remainder is the author and the text is empty). -/
theorem claim_C3 (hs : List Char)
    (hhs : (∃ a, hs = [a] ∧ isDigit a = true) ∨
      (∃ a b, hs = [a, b] ∧ isDigit a = true ∧ isDigit b = true))
    (m1 m2 : Char) (hm1 : isDigit m1 = true) (hm2 : isDigit m2 = true)
    (sep : Char) (hsep : sep = ' ' ∨ sep = '\t')
    (rem : List Char)
    (hrem : ∃ r0 rrest, rem = r0 :: rrest ∧ r0 ≠ '\t')
    (hterm : ∀ c ∈ rem, isLineTerminator c = false) :
    matchMessageStart (hs ++ ':' :: m1 :: m2 :: sep :: rem) none =
      some ⟨parseDigits hs % 24, parseDigits [m1, m2],
            rem.takeWhile (fun c => c != '\t'),
            (rem.dropWhile (fun c => c != '\t')).drop 1⟩ := by
  have htime : matchTime (hs ++ ':' :: m1 :: m2 :: sep :: rem) =
      some (parseDigits hs, parseDigits [m1, m2], sep :: rem) := by
    rcases hhs with ⟨a, rfl, ha⟩ | ⟨a, b, rfl, ha, hb⟩
    · simp only [List.cons_append, List.nil_append, matchTime, ha,
        (by decide : isDigit ':' = false), if_true, if_false]
      simp [parseDigits, digitVal, hm1, hm2]
    · simp only [List.cons_append, List.nil_append, matchTime, ha, hb, if_true]
      simp only [hm1, hm2, Bool.and_self, if_true]
      simp [parseDigits, digitVal]
  have hsepb : (sep == ' ' || sep == '\t') = true := by
    rcases hsep with rfl | rfl <;> decide
  obtain ⟨r0, rrest, hr, hr0⟩ := hrem
  have hnl : '\n' ∉ rem := by
    intro hm
    have := hterm '\n' hm
    simp [isLineTerminator] at this
  have hr0b : (r0 != '\t') = true := by simpa using hr0
  have hm3ne : rem.takeWhile (fun c => c != '\t') ≠ [] := by
    rw [hr, List.takeWhile_cons, if_pos hr0b]
    exact List.cons_ne_nil _ _
  have htw := takeWhile_notab_of_no_newline rem hnl
  have hdw := dropWhile_notab_of_no_newline rem hnl
  rw [matchMessageStart, htime]
  simp only [if_pos hsepb]
  rw [noUsersTail]
  simp only [htw, hdw]
  rw [if_neg hm3ne]
  rcases dropWhile_notab_shape rem with hshape | ⟨r, hshape⟩
  · rw [hshape]
    simp only [List.takeWhile_nil, List.drop_nil]
    have : ¬ ([] : List Char) ≠ [] := fun hx => hx rfl
    rw [if_neg this]
    have hdropall : (rem.takeWhile (fun c => c != '\t')).drop
        ((rem.takeWhile (fun c => c != '\t')).length + 1) = [] :=
      List.drop_eq_nil_of_le (Nat.le_succ _)
    rw [hdropall]
  · rw [hshape]
    have htermr : ∀ c ∈ r, isLineTerminator c = false := by
      intro c hmem
      exact hterm c (mem_of_mem_dropWhile rem
        (by rw [hshape]; exact List.mem_cons_of_mem _ hmem))
    have hm4 : r.takeWhile (fun c => !isLineTerminator c) = r :=
      takeWhile_noterm_of_terminator_free r htermr
    simp only [hm4, List.drop_succ_cons, List.drop_zero]
    by_cases hrnil : r = []
    · subst hrnil
      have : ¬ ([] : List Char) ≠ [] := fun hx => hx rfl
      rw [if_neg this]
      have hdropall : (rem.takeWhile (fun c => c != '\t')).drop
          ((rem.takeWhile (fun c => c != '\t')).length + 1) = [] :=
        List.drop_eq_nil_of_le (Nat.le_succ _)
      rw [hdropall]
    · rw [if_pos hrnil]

/-- C3 witness: the tab-separated test line `"12:00\tfoo\thello world"`
yields author `"foo"` and text `"hello world"`. -/
theorem claim_C3_witness :
    ((∃ a, (['1', '2'] : List Char) = [a] ∧ isDigit a = true) ∨
      (∃ a b, (['1', '2'] : List Char) = [a, b] ∧
        isDigit a = true ∧ isDigit b = true)) ∧
    (('\t' : Char) = ' ' ∨ ('\t' : Char) = '\t') ∧
    (∃ r0 rrest, String.toList "foo\thello world" = r0 :: rrest ∧
      r0 ≠ '\t') ∧
    (∀ c ∈ String.toList "foo\thello world", isLineTerminator c = false) ∧
    matchMessageStart
        (['1', '2'] ++ ':' :: '0' :: '0' :: '\t' ::
          String.toList "foo\thello world") none =
      some ⟨parseDigits ['1', '2'] % 24, parseDigits ['0', '0'],
            (String.toList "foo\thello world").takeWhile (fun c => c != '\t'),
            ((String.toList "foo\thello world").dropWhile
              (fun c => c != '\t')).drop 1⟩ :=
  ⟨Or.inr ⟨'1', '2', rfl, by decide, by decide⟩,
   Or.inr rfl,
   ⟨'f', String.toList "oo\thello world", by decide, by decide⟩,
   by decide,
   claim_C3 ['1', '2'] (Or.inr ⟨'1', '2', rfl, by decide, by decide⟩)
     '0' '0' (by decide) (by decide) '\t' (Or.inr rfl)
     (String.toList "foo\thello world")
     ⟨'f', String.toList "oo\thello world", by decide, by decide⟩
     (by decide)⟩

/-- `setHoursMinutes` with a time-of-day under a full day stays on the same
calendar day (same floor day index) and lands exactly on that time-of-day. -/
theorem setHoursMinutes_day (t : Int) (k : Nat) (hk : (k : Int) < 1440) :
    (t - t % 1440 + (k : Int)) / 1440 = t / 1440 ∧
    (t - t % 1440 + (k : Int)) % 1440 = (k : Int) := by
  have hmid : t - t % 1440 = 1440 * (t / 1440) := by
    have := Int.ediv_add_emod t 1440
    omega
  have h0 : (0 : Int) ≤ (k : Int) := Int.ofNat_nonneg k
  rw [hmid]
  constructor
  · rw [add_comm, Int.add_mul_ediv_left (k : Int) (t / 1440)
      (by norm_num : (1440 : Int) ≠ 0)]
    rw [Int.ediv_eq_zero_of_lt h0 hk]
    simp
  · rw [add_comm, Int.add_mul_emod_self_left]
    exact Int.emod_eq_of_lt h0 hk

/-- The no-users tail always reports the hour reduced modulo 24 and the
minute as parsed. -/
theorem noUsersTail_fields (h mn : Nat) (rest2 : List Char) (ms : MsgStart)
    (hh : noUsersTail h mn rest2 = some ms) :
    ms.hours = h % 24 ∧ ms.minutes = mn := by
  simp only [noUsersTail] at hh
  split at hh
  · exact absurd hh (by simp)
  · have := (Option.some.injEq _ _).mp hh
    rw [← this]
    exact ⟨rfl, rfl⟩

/-- The with-users tail always reports the hour reduced modulo 24 and the
minute as parsed. -/
theorem usersTail_fields (us : List (List Char)) (h mn : Nat)
    (rest2 : List Char) (ms : MsgStart)
    (hh : usersTail us h mn rest2 = some ms) :
    ms.hours = h % 24 ∧ ms.minutes = mn := by
  cases rest2 with
  | nil => exact absurd hh (by simp [usersTail])
  | cons c rest3 =>
    simp only [usersTail] at hh
    split at hh
    · exact absurd hh (by simp)
    · split at hh
      · exact absurd hh (by simp)
      · have := (Option.some.injEq _ _).mp hh
        rw [← this]
        exact ⟨rfl, rfl⟩

/-- Any successful message-start match reports `hours = parsed % 24` and the
parsed minute. -/
theorem matchMessageStart_fields (line : List Char)
    (users : Option (List (List Char))) (h12 mn : Nat) (rest : List Char)
    (ms : MsgStart) (hmt : matchTime line = some (h12, mn, rest))
    (h : matchMessageStart line users = some ms) :
    ms.hours = h12 % 24 ∧ ms.minutes = mn := by
  unfold matchMessageStart at h
  rw [hmt] at h
  cases rest with
  | nil => simp at h
  | cons sep rest2 =>
    simp only at h
    split at h
    · cases users with
      | none => exact noUsersTail_fields h12 mn rest2 ms h
      | some us => exact usersTail_fields us h12 mn rest2 ms h
    · simp at h

/-- C5 counterexample: `"23:99 foo x"` matches (hour 23, two-digit minute
token 99); `setHours(23, 99)` normalizes 23:99 to 00:39 of the NEXT day, so
the in-progress message's calendar day differs from `currentDate`'s. -/
theorem claim_C5_counterexample :
    matchMessageStart (String.toList "23:99 foo x")
        (some [String.toList "foo"]) =
      some ⟨23, 99, String.toList "foo", String.toList "x"⟩ ∧
    (LineChatParser.process ⟨some [String.toList "foo"], 0, none⟩
        (String.toList "23:99 foo x")).1.currentMessage =
      some ⟨1479, String.toList "foo", String.toList "x"⟩ ∧
    (1479 : Int) / 1440 ≠ (0 : Int) / 1440 :=
  ⟨by decide, by decide, by decide⟩

/-- C5 (amended): the parsed hour is taken modulo 24 and the minute as-is;
the new in-progress message's date is `currentDate` rebased to its own
midnight plus `hours*60 + minutes` minutes, which keeps the calendar day of
`currentDate` (only overwriting the time of day) exactly when
`hours*60 + minutes < 1440` — in particular whenever the minute token is at
most 59, hour 24 with minute 53 giving 00:53 of the same day — while minute
tokens 60–99 carry over and, from 23:60 on, advance the day. -/
theorem claim_C5 :
    (∀ (line : List Char) (users : Option (List (List Char)))
        (h12 mn : Nat) (rest : List Char) (ms : MsgStart),
      matchTime line = some (h12, mn, rest) →
      matchMessageStart line users = some ms →
      ms.hours = h12 % 24 ∧ ms.minutes = mn ∧ ms.hours < 24) ∧
    (∀ (p : LineChatParser) (line : List Char) (ms : MsgStart),
      matchDateHeader line = none →
      matchMessageStart line p.users = some ms →
      ms.hours * 60 + ms.minutes < 1440 →
      (p.process line).1.currentMessage =
        some ⟨setHoursMinutes p.currentDate ms.hours ms.minutes,
              ms.author, ms.text⟩ ∧
      setHoursMinutes p.currentDate ms.hours ms.minutes / 1440 =
        p.currentDate / 1440 ∧
      setHoursMinutes p.currentDate ms.hours ms.minutes % 1440 =
        ((ms.hours * 60 + ms.minutes : Nat) : Int)) := by
  constructor
  · intro line users h12 mn rest ms hmt h
    obtain ⟨h1, h2⟩ := matchMessageStart_fields line users h12 mn rest ms hmt h
    exact ⟨h1, h2, h1 ▸ Nat.mod_lt _ (by norm_num)⟩
  · intro p line ms hd hm hlt
    have hk : ((ms.hours * 60 + ms.minutes : Nat) : Int) < 1440 := by
      exact_mod_cast hlt
    obtain ⟨hdiv, hmod⟩ := setHoursMinutes_day p.currentDate
      (ms.hours * 60 + ms.minutes) hk
    refine ⟨?_, ?_, ?_⟩
    · cases hp : p.currentMessage <;>
        simp [LineChatParser.process, hd, hm,
          LineChatParser.processMessageStart, LineChatParser.flush, hp]
    · simpa [setHoursMinutes] using hdiv
    · simpa [setHoursMinutes] using hmod

/-- C5 witness: `"24:53\tfoo\thi"` (hour token 24) gives 00:53 of the
current day. -/
theorem claim_C5_witness :
    (matchTime (String.toList "24:53\tfoo\thi") =
        some (24, 53, String.toList "\tfoo\thi") ∧
     matchMessageStart (String.toList "24:53\tfoo\thi") none =
        some ⟨0, 53, String.toList "foo", String.toList "hi"⟩ ∧
     matchDateHeader (String.toList "24:53\tfoo\thi") = none ∧
     0 * 60 + 53 < 1440) ∧
    ((0 : Nat) = 24 % 24 ∧ (53 : Nat) = 53 ∧ (0 : Nat) < 24) ∧
    ((LineChatParser.process ⟨none, 0, none⟩
        (String.toList "24:53\tfoo\thi")).1.currentMessage =
      some ⟨setHoursMinutes 0 0 53, String.toList "foo", String.toList "hi"⟩ ∧
     setHoursMinutes 0 0 53 / 1440 = (0 : Int) / 1440 ∧
     setHoursMinutes 0 0 53 % 1440 = ((0 * 60 + 53 : Nat) : Int)) := by
  refine ⟨⟨by decide, by decide, by decide, by decide⟩, ?_, ?_⟩
  · exact claim_C5.1 (String.toList "24:53\tfoo\thi") none 24 53
      (String.toList "\tfoo\thi")
      ⟨0, 53, String.toList "foo", String.toList "hi"⟩ (by decide) (by decide)
  · exact claim_C5.2 ⟨none, 0, none⟩ (String.toList "24:53\tfoo\thi")
      ⟨0, 53, String.toList "foo", String.toList "hi"⟩
      (by decide) (by decide) (by decide)

/-- C8 counterexample: `"2017.09/02 Saturday"` uses a period first and a
slash second — two different separators — yet is recognized as a date
header, because the regex checks `[./]` at each position independently. -/
theorem claim_C8_counterexample :
    ('.' : Char) ≠ '/' ∧
    matchDateHeader (String.toList "2017.09/02 Saturday") =
      some ⟨2017, 8, 2⟩ :=
  ⟨by decide, by decide⟩

/-- C8 (amended): a line is recognized as a date header exactly when it
starts with a 4-digit year, a separator that is `.` or `/`, a 2-digit month,
a second separator that is independently `.` or `/` (the two need not be the
same character), a 2-digit day, and a tail that is a space plus a
capitalized word or a parenthesized annotation (whose content the regex `.`
keeps free of line terminators). -/
theorem claim_C8 :
    (∀ (line : List Char) (dh : DateHeader), matchDateHeader line = some dh →
      ∃ y1 y2 y3 y4 s1 mo1 mo2 s2 d1 d2 rest,
        line = y1 :: y2 :: y3 :: y4 :: s1 :: mo1 :: mo2 :: s2 ::
          d1 :: d2 :: rest ∧
        isDigit y1 = true ∧ isDigit y2 = true ∧ isDigit y3 = true ∧
        isDigit y4 = true ∧ (s1 = '.' ∨ s1 = '/') ∧
        isDigit mo1 = true ∧ isDigit mo2 = true ∧ (s2 = '.' ∨ s2 = '/') ∧
        isDigit d1 = true ∧ isDigit d2 = true ∧ dateHeaderTail rest = true ∧
        dh = ⟨(parseDigits [y1, y2, y3, y4] : Int),
              (parseDigits [mo1, mo2] : Int) - 1,
              (parseDigits [d1, d2] : Int)⟩) ∧
    (∀ (y1 y2 y3 y4 s1 mo1 mo2 s2 d1 d2 : Char) (rest : List Char),
      isDigit y1 = true → isDigit y2 = true → isDigit y3 = true →
      isDigit y4 = true → (s1 = '.' ∨ s1 = '/') →
      isDigit mo1 = true → isDigit mo2 = true → (s2 = '.' ∨ s2 = '/') →
      isDigit d1 = true → isDigit d2 = true → dateHeaderTail rest = true →
      matchDateHeader (y1 :: y2 :: y3 :: y4 :: s1 :: mo1 :: mo2 :: s2 ::
          d1 :: d2 :: rest) =
        some ⟨(parseDigits [y1, y2, y3, y4] : Int),
              (parseDigits [mo1, mo2] : Int) - 1,
              (parseDigits [d1, d2] : Int)⟩) := by
  constructor
  · intro line dh h
    unfold matchDateHeader at h
    split at h
    · rename_i y1 y2 y3 y4 s1 mo1 mo2 s2 d1 d2 rest
      split at h
      · rename_i hcond
        simp only [Bool.and_eq_true, Bool.or_eq_true, beq_iff_eq] at hcond
        obtain ⟨⟨⟨⟨⟨⟨⟨⟨⟨⟨hA, hB⟩, hC⟩, hD⟩, hE⟩, hF⟩, hG⟩, hH⟩, hI⟩,
          hJ⟩, hK⟩ := hcond
        exact ⟨y1, y2, y3, y4, s1, mo1, mo2, s2, d1, d2, rest, rfl,
          hA, hB, hC, hD, hE, hF, hG, hH, hI, hJ, hK,
          ((Option.some.injEq _ _).mp h).symm⟩
      · exact absurd h (by simp)
    · exact absurd h (by simp)
  · intro y1 y2 y3 y4 s1 mo1 mo2 s2 d1 d2 rest
    intro hy1 hy2 hy3 hy4 hs1 hmo1 hmo2 hs2 hd1 hd2 htail
    have hs1b : (s1 == '.' || s1 == '/') = true := by
      rcases hs1 with rfl | rfl <;> decide
    have hs2b : (s2 == '.' || s2 == '/') = true := by
      rcases hs2 with rfl | rfl <;> decide
    simp [matchDateHeader, hy1, hy2, hy3, hy4, hs1b, hmo1, hmo2, hs2b,
      hd1, hd2, htail]

/-- C8 witness: the mixed-separator header `"2017.09/02 Saturday"`
instantiates both directions. -/
theorem claim_C8_witness :
    (∃ y1 y2 y3 y4 s1 mo1 mo2 s2 d1 d2 rest,
      String.toList "2017.09/02 Saturday" = y1 :: y2 :: y3 :: y4 :: s1 ::
        mo1 :: mo2 :: s2 :: d1 :: d2 :: rest ∧
      isDigit y1 = true ∧ isDigit y2 = true ∧ isDigit y3 = true ∧
      isDigit y4 = true ∧ (s1 = '.' ∨ s1 = '/') ∧
      isDigit mo1 = true ∧ isDigit mo2 = true ∧ (s2 = '.' ∨ s2 = '/') ∧
      isDigit d1 = true ∧ isDigit d2 = true ∧ dateHeaderTail rest = true ∧
      (⟨2017, 8, 2⟩ : DateHeader) =
        ⟨(parseDigits [y1, y2, y3, y4] : Int),
         (parseDigits [mo1, mo2] : Int) - 1,
         (parseDigits [d1, d2] : Int)⟩) ∧
    matchDateHeader ('2' :: '0' :: '1' :: '7' :: '.' :: '0' :: '9' :: '/' ::
        '0' :: '2' :: String.toList " Saturday") =
      some ⟨(parseDigits ['2', '0', '1', '7'] : Int),
            (parseDigits ['0', '9'] : Int) - 1,
            (parseDigits ['0', '2'] : Int)⟩ :=
  ⟨claim_C8.1 (String.toList "2017.09/02 Saturday") ⟨2017, 8, 2⟩ (by decide),
   claim_C8.2 '2' '0' '1' '7' '.' '0' '9' '/' '0' '2'
     (String.toList " Saturday") (by decide) (by decide) (by decide)
     (by decide) (Or.inl rfl) (by decide) (by decide) (Or.inr rfl)
     (by decide) (by decide) (by decide)⟩

/-!
### The spec-side batch entry point

The following definitions are modelled from the spec's description of
`parse` rather than from the source, in order to compare the two.
-/

/-- Modelled from the spec: cut the document at every bare linefeed
(every line, including empty ones, is preserved). -/
def splitOnLF : List Char → List (List Char)
  | [] => [[]]
  | c :: rest =>
    if c = '\n' then [] :: splitOnLF rest
    else consHead c (splitOnLF rest)

/-- Modelled from the spec: remove the single optional carriage return
that immediately precedes a line-terminating linefeed. -/
def chopCR (l : List Char) : List Char :=
  if l.getLast? = some '\r' then l.dropLast else l

/-- Apply `f` to every piece except the final (unterminated) one. -/
def mapButLast (f : List Char → List Char) : List (List Char) → List (List Char)
  | [] => []
  | [x] => [x]
  | x :: y :: ys => f x :: mapButLast f (y :: ys)

/-- Modelled from the spec: split on a linefeed optionally preceded by a
carriage return — cut at every linefeed, then strip the one optional
carriage return terminating each non-final piece. -/
def specSplit (s : List Char) : List (List Char) :=
  mapButLast chopCR (splitOnLF s)

/-- Modelled from the spec: a string input is split into lines, an array
input is used as the line sequence as-is. -/
def specLinesOf (file : Sum (List Char) (List (List Char))) :
    List (List Char) :=
  match file with
  | Sum.inl str => specSplit str
  | Sum.inr arr => arr

/-- Modelled from the spec: feed each line to `processLine` in order, call
`flush` once at the end, and return every emitted message in emission
order. -/
def specRun (p : LineChatParser) : List (List Char) → List Message
  | [] => p.flush.2
  | l :: ls => (p.process l).2 ++ specRun (p.process l).1 ls

/-- Modelled from the spec: construct a fresh accumulator and run it over
the lines of the input. -/
def specParse (now : Int) (file : Sum (List Char) (List (List Char)))
    (users : Option (List (List Char))) : List Message :=
  specRun { users := users, currentDate := now, currentMessage := none }
    (specLinesOf file)

/-- `consHead` never yields an empty split. -/
theorem consHead_ne_nil (c : Char) (P : List (List Char)) :
    consHead c P ≠ [] := by
  cases P <;> simp [consHead]

/-- A split always has at least one piece. -/
theorem splitOnLF_ne_nil (s : List Char) : splitOnLF s ≠ [] := by
  induction s with
  | nil => simp [splitOnLF]
  | cons c rest ih =>
    by_cases hc : c = '\n' <;>
      simp [splitOnLF, hc, consHead_ne_nil]

/-- `chopCR` commutes with consing a character onto a nonempty piece. -/
theorem chopCR_cons (c : Char) (x : List Char) (hx : x ≠ []) :
    chopCR (c :: x) = c :: chopCR x := by
  obtain ⟨y, ys, rfl⟩ := List.exists_cons_of_ne_nil hx
  unfold chopCR
  rw [List.getLast?_cons_cons]
  by_cases hlast : (y :: ys).getLast? = some '\r'
  · rw [if_pos hlast, if_pos hlast]
    rfl
  · rw [if_neg hlast, if_neg hlast]

/-- An empty first piece of `splitOnLF` means the input was empty or began
with a linefeed. -/
theorem splitOnLF_head_empty (rest : List Char) (x : List Char)
    (xs : List (List Char)) (h : splitOnLF rest = x :: xs) (hx : x = []) :
    rest = [] ∨ ∃ r, rest = '\n' :: r := by
  cases rest with
  | nil => exact Or.inl rfl
  | cons c r =>
    by_cases hc : c = '\n'
    · exact Or.inr ⟨r, by rw [hc]⟩
    · exfalso
      rw [splitOnLF, if_neg hc] at h
      obtain ⟨q, qs, hq⟩ := List.exists_cons_of_ne_nil (splitOnLF_ne_nil r)
      rw [hq] at h
      simp only [consHead] at h
      have hcq : c :: q = x := ((List.cons.injEq _ _ _ _).mp h).1
      rw [hx] at hcq
      exact List.cons_ne_nil c q hcq

/-- `mapButLast chopCR` commutes with consing a character onto the first
piece, provided the character is not a carriage return about to meet a
piece boundary (the case the `\r?\n` separator consumes). -/
theorem mapButLast_consHead (c : Char) (P : List (List Char)) (hP : P ≠ [])
    (hc : c = '\r' → ∀ x xs, P = x :: xs → xs = [] ∨ x ≠ []) :
    mapButLast chopCR (consHead c P) = consHead c (mapButLast chopCR P) := by
  cases P with
  | nil => exact absurd rfl hP
  | cons x xs =>
    cases xs with
    | nil => rfl
    | cons y ys =>
      simp only [consHead, mapButLast]
      by_cases hx : x = []
      · have hcr : c ≠ '\r' := by
          intro hceq
          rcases hc hceq x (y :: ys) rfl with h | h
          · exact List.cons_ne_nil y ys h
          · exact h hx
        subst hx
        have : chopCR [c] = [c] := by
          unfold chopCR
          rw [if_neg (by simpa using hcr)]
        rw [this]
        rfl
      · rw [chopCR_cons c x hx]

/-- The source's `split(/\r?\n/)` agrees with the spec's description of the
line splitting. -/
theorem splitLines_eq_specSplit (s : List Char) :
    splitLines s = specSplit s := by
  induction s using splitLines.induct with
  | case1 => rfl
  | case2 rest ih =>
    obtain ⟨x, xs, hq⟩ := List.exists_cons_of_ne_nil (splitOnLF_ne_nil rest)
    show [] :: splitLines rest = mapButLast chopCR (splitOnLF ('\n' :: rest))
    rw [splitOnLF, if_pos rfl, hq, mapButLast, ih]
    show _ = chopCR [] :: _
    rw [show chopCR [] = [] from rfl]
    unfold specSplit
    rw [hq]
  | case3 rest ih =>
    obtain ⟨x, xs, hq⟩ := List.exists_cons_of_ne_nil (splitOnLF_ne_nil rest)
    show [] :: splitLines rest = mapButLast chopCR (splitOnLF ('\r' :: '\n' :: rest))
    rw [splitOnLF, if_neg (by decide : ¬ ('\r' : Char) = '\n'),
      splitOnLF, if_pos rfl, hq]
    show _ = mapButLast chopCR (('\r' :: []) :: x :: xs)
    rw [mapButLast, ih]
    rw [show chopCR ['\r'] = [] from rfl]
    unfold specSplit
    rw [hq]
  | case4 c rest h1 h2 ih =>
    rw [splitLines.eq_4 c rest h1 h2, ih]
    unfold specSplit
    rw [splitOnLF, if_neg (fun h => h1 h)]
    rw [mapButLast_consHead c (splitOnLF rest) (splitOnLF_ne_nil rest)]
    intro hcr x xs hx
    by_cases hxe : x = []
    · rcases splitOnLF_head_empty rest x xs hx hxe with h | ⟨r, hr⟩
      · rw [h] at hx
        have hx1 : x :: xs = [[]] := by simpa [splitOnLF] using hx.symm
        exact Or.inl (((List.cons.injEq _ _ _ _).mp hx1).2)
      · exact absurd hr (fun hr0 => h2 r hcr hr0)
    · exact Or.inr hxe

/-- Collecting emissions while processing and flushing equals the spec's
run. -/
theorem specRun_eq_processAll (ls : List (List Char)) :
    ∀ p : LineChatParser,
      specRun p ls = (processAll p ls).2 ++ (processAll p ls).1.flush.2 := by
  induction ls with
  | nil => intro p; simp [specRun, processAll]
  | cons l ls ih =>
    intro p
    simp [specRun, processAll, ih (p.process l).1, List.append_assoc]

/-- C4 counterexample: a carriage return not followed by a linefeed is not a
split point, so `"x\rb"` stays one line; it matches neither pattern (the
time prefix needs a digit) and is appended verbatim as a continuation, so
"carriage returns never appear inside message texts" fails on
`"12:00 foo a\nx\rb"`, whose single message has text `"a\nx\rb"`. -/
theorem claim_C4_counterexample :
    (LineChatParser.parse 0 (Sum.inl (String.toList "12:00 foo a\nx\rb"))
        (some [String.toList "foo"])).map Message.text =
      [String.toList "a\nx\rb"] ∧
    '\r' ∈ String.toList "a\nx\rb" :=
  ⟨by decide, by decide⟩

/-- C4 (amended): `parse` returns exactly the emissions of a fresh
accumulator fed each line in order followed by one flush, where a string
input is split on a linefeed optionally preceded by a carriage return — so
CRLF and LF both terminate lines, every line including empty ones is
preserved, and a carriage return immediately before a linefeed is stripped
(one not followed by a linefeed stays and may appear inside message
texts) — and an array input is used as-is. -/
theorem claim_C4 :
    (∀ (now : Int) (file : Sum (List Char) (List (List Char)))
        (users : Option (List (List Char))),
      LineChatParser.parse now file users = specParse now file users) ∧
    (∀ a b : List Char, '\n' ∉ a → '\r' ∉ a →
      splitLines (a ++ '\n' :: b) = a :: splitLines b ∧
      splitLines (a ++ '\r' :: '\n' :: b) = a :: splitLines b) := by
  constructor
  · intro now file users
    have hlines : linesOf file = specLinesOf file := by
      cases file with
      | inl str =>
        simp [linesOf, specLinesOf, splitLines_eq_specSplit]
      | inr arr => rfl
    rw [LineChatParser.parse, specParse, ← hlines, specRun_eq_processAll]
  · intro a b
    induction a with
    | nil =>
      intro _ _
      constructor
      · rfl
      · rfl
    | cons c a' ih =>
      intro hnl hcr
      have hnl' : '\n' ∉ a' := fun h => hnl (List.mem_cons_of_mem c h)
      have hcr' : '\r' ∉ a' := fun h => hcr (List.mem_cons_of_mem c h)
      have hc1 : c = '\n' → False := fun h => hnl (h ▸ List.mem_cons_self c a')
      have hc2 : c = '\r' → False := fun h => hcr (h ▸ List.mem_cons_self c a')
      obtain ⟨ihl, ihr⟩ := ih hnl' hcr'
      constructor
      · rw [List.cons_append,
          splitLines.eq_4 c (a' ++ '\n' :: b) hc1
            (fun r hc _ => hc2 hc), ihl]
        rfl
      · rw [List.cons_append,
          splitLines.eq_4 c (a' ++ '\r' :: '\n' :: b) hc1
            (fun r hc _ => hc2 hc), ihr]
        rfl

/-- C4 witness: the CRLF test input, plus concrete line-terminator
instances. -/
theorem claim_C4_witness :
    LineChatParser.parse 0
        (Sum.inl (String.toList "12:00 foo a\r\nb\r\n13:00 foo c"))
        (some [String.toList "foo"]) =
      specParse 0
        (Sum.inl (String.toList "12:00 foo a\r\nb\r\n13:00 foo c"))
        (some [String.toList "foo"]) ∧
    ('\n' ∉ String.toList "12:00 foo a" ∧ '\r' ∉ String.toList "12:00 foo a") ∧
    splitLines (String.toList "12:00 foo a" ++ '\n' :: String.toList "b") =
      String.toList "12:00 foo a" :: splitLines (String.toList "b") ∧
    splitLines (String.toList "12:00 foo a" ++ '\r' :: '\n' ::
        String.toList "b") =
      String.toList "12:00 foo a" :: splitLines (String.toList "b") :=
  ⟨claim_C4.1 0 (Sum.inl (String.toList "12:00 foo a\r\nb\r\n13:00 foo c"))
      (some [String.toList "foo"]),
   ⟨by decide, by decide⟩,
   (claim_C4.2 (String.toList "12:00 foo a") (String.toList "b")
      (by decide) (by decide)).1,
   (claim_C4.2 (String.toList "12:00 foo a") (String.toList "b")
      (by decide) (by decide)).2⟩
